import Mathlib

/-!
Shallow embedding of the SecureHex generator core (src/src/App.tsx).

The Randomness Source (`getSecureRandom`, which draws one uniformly random
unsigned 32-bit value with `crypto.getRandomValues` and reduces it modulo
`max`) is modelled by a tape of raw draws: each call consumes the head of a
`List ℕ` and reduces it modulo `max`.  All properties below are proved for
every tape, i.e. for every outcome of the Randomness Source.

The host's `Array.prototype.sort` run with the inconsistent random comparator
`() => getSecureRandom(3) - 1` has an implementation-defined order; it is
modelled here as a comparator-driven insertion sort consuming the same kind
of comparator draws.  Every property proved about the shuffle (length and
multiset/membership preservation) holds for any comparator-driven
permutation a host sort could produce.

`Math.log2` on IEEE doubles is modelled as `Real.logb 2` on the reals, the
standard idealisation.
-/

/-- The seed alphabet of 26 lowercase letters (`lower` in `generateCharacterSet`). -/
def lowerSeed : List Char := "abcdefghijklmnopqrstuvwxyz".toList

/-- The seed alphabet of 26 uppercase letters (`upper` in `generateCharacterSet`). -/
def upperSeed : List Char := "ABCDEFGHIJKLMNOPQRSTUVWXYZ".toList

/-- The seed alphabet of 10 digits (`numbers` in `generateCharacterSet`). -/
def numberSeed : List Char := "0123456789".toList

/-- The symbol seed alphabet (`symbols` in `generateCharacterSet`). -/
def symbolSeed : List Char := "!@#$%^&*()_+-=[]\x7b\x7d|;:,.<>?".toList

/-- The 8-character set the required symbol character is drawn from in
`generatePassword` (the literal `"!@#$%^&*"` at the `requiredChars.push` call). -/
def reqSymbolSeed : List Char := "!@#$%^&*".toList

/-- The fixed ambiguous-character set (`ambiguous` in `generateCharacterSet`). -/
def ambiguousSeed : List Char := "O0Il1".toList

/-- The fixed passphrase word list (`WORD_LIST`). -/
def WORD_LIST : List String :=
  ["Mountain", "Ocean", "Thunder", "Phoenix", "Dragon", "Crystal", "Shadow",
   "Lightning", "Frost", "Blaze", "Storm", "Eagle", "Tiger", "Wolf", "Bear",
   "River", "Forest", "Star", "Moon", "Sun", "Wind", "Fire", "Ice", "Earth",
   "Sky", "Cloud", "Rain", "Snow", "Leaf", "Tree", "Rock", "Gold", "Silver",
   "Diamond", "Ruby", "Sapphire", "Pearl", "Coral", "Wave", "Tide", "Shore"]

/-- The options record (`PasswordOptions` in the source). -/
structure PasswordOptions where
  length : ℕ
  includeLowercase : Bool
  includeUppercase : Bool
  includeNumbers : Bool
  includeSymbols : Bool
  excludeAmbiguous : Bool
  includeDashes : Bool
deriving DecidableEq

/-- The generation mode (the `"password" | "passphrase"` union in the source). -/
inductive PasswordType where
  | password
  | passphrase
deriving DecidableEq

/-- The result record (`GeneratedPassword` in the source). -/
structure GeneratedPassword where
  password : List Char
  strength : ℕ
  entropy : ℝ
  type : PasswordType

/-- `getSecureRandom(max)`: consume the next raw 32-bit draw of the tape and
reduce it modulo `max` (the source computes `array[0] % max`). -/
def getSecureRandom (max : ℕ) (t : List ℕ) : ℕ × List ℕ :=
  (t.headI % max, t.tail)

/-- `calculateEntropy(password, charset) = password.length * Math.log2(charset.length)`. -/
noncomputable def calculateEntropy (password charset : List Char) : ℝ :=
  (password.length : ℝ) * Real.logb 2 (charset.length : ℝ)

/-- `getPasswordStrength`: the fixed entropy thresholds 28, 35, 59, 127 mapped
to tiers 1–5.  Stated generically over a linear ordered field so it can be
evaluated on `ℚ` and reasoned about on `ℝ` (the source works on IEEE doubles). -/
def getPasswordStrength {α : Type} [LinearOrderedField α] (entropy : α) : ℕ :=
  if entropy < 28 then 1
  else if entropy < 35 then 2
  else if entropy < 59 then 3
  else if entropy < 127 then 4
  else 5

/-- `generateCharacterSet()`: concatenate the seed strings of the selected
classes in source order, then filter out the ambiguous characters when
`excludeAmbiguous` is set. -/
def generateCharacterSet (o : PasswordOptions) : List Char :=
  let charset :=
    (if o.includeLowercase then lowerSeed else []) ++
    (if o.includeUppercase then upperSeed else []) ++
    (if o.includeNumbers then numberSeed else []) ++
    (if o.includeSymbols then symbolSeed else [])
  if o.excludeAmbiguous then charset.filter (fun c => decide (c ∉ ambiguousSeed)) else charset

/-- One conditional required-character draw: when `flag` is set, draw one
character from `seed` (of size `n`, the literal the source passes to
`getSecureRandom`) and consume one tape value. -/
def drawReq (flag : Bool) (seed : List Char) (n : ℕ) (t : List ℕ) : List Char × List ℕ :=
  if flag then ([seed.getD (t.headI % n) ' '], t.tail) else ([], t)

/-- Append one conditional required-character draw to an accumulated
(characters, tape) pair. -/
def drawSeq (p : List Char × List ℕ) (flag : Bool) (seed : List Char) (n : ℕ) :
    List Char × List ℕ :=
  ((p.1 ++ (drawReq flag seed n p.2).1), (drawReq flag seed n p.2).2)

/-- The `requiredChars` array of `generatePassword`: one draw per selected
class, in source order — lowercase and uppercase from their 26-letter seeds,
digits from the 10-digit seed, and the symbol draw from the 8-character
literal `"!@#$%^&*"`. -/
def requiredChars (o : PasswordOptions) (t : List ℕ) : List Char × List ℕ :=
  drawSeq (drawSeq (drawSeq (drawSeq ([], t)
    o.includeLowercase lowerSeed 26)
    o.includeUppercase upperSeed 26)
    o.includeNumbers numberSeed 10)
    o.includeSymbols reqSymbolSeed 8

/-- Modelled from the spec (§4.3 step 2): required characters drawn from each
class's *own full* seed alphabet — in particular the symbol draw from the full
26-character symbol seed, not from the 8-character subset the code uses.  Only
used as the comparison point for the refinement claim about required draws. -/
def requiredCharsSpec (o : PasswordOptions) (t : List ℕ) : List Char × List ℕ :=
  drawSeq (drawSeq (drawSeq (drawSeq ([], t)
    o.includeLowercase lowerSeed 26)
    o.includeUppercase upperSeed 26)
    o.includeNumbers numberSeed 10)
    o.includeSymbols symbolSeed 26

/-- The fill loop of `generatePassword`: draw `n` characters from the combined
charset, consuming one tape value each. -/
def fillChars (charset : List Char) : ℕ → List ℕ → List Char × List ℕ
  | 0, t => ([], t)
  | n + 1, t =>
      (charset.getD (t.headI % charset.length) ' ' ::
        (fillChars charset n t.tail).1,
       (fillChars charset n t.tail).2)

/-- One insertion step of the comparator-driven sort model: place `a` into the
already-processed list, drawing one comparator value `getSecureRandom(3) - 1`
per comparison. -/
def insertCmp (a : Char) : List Char → List ℕ → List Char × List ℕ
  | [], t => ([a], t)
  | b :: bs, t =>
      if ((t.headI % 3 : ℕ) : ℤ) - 1 ≤ 0 then (a :: b :: bs, t.tail)
      else ((b :: (insertCmp a bs t.tail).1), (insertCmp a bs t.tail).2)

/-- The comparator-driven sort model of `password.split("").sort(() =>
getSecureRandom(3) - 1)`.  See the file header: the host order is
implementation-defined, and every property proved below holds for any
comparator-driven permutation. -/
def sortCmp : List Char → List ℕ → List Char × List ℕ
  | [], t => ([], t)
  | a :: as, t => insertCmp a (sortCmp as t).1 (sortCmp as t).2

/-- The shuffled password of `generatePassword` before dash insertion,
with the rest of the tape: required characters, then the fill up to
`options.length`, then the shuffle. -/
def preDashPassword (o : PasswordOptions) (t : List ℕ) : List Char × List ℕ :=
  sortCmp ((requiredChars o t).1 ++
      (fillChars (generateCharacterSet o) (o.length - (requiredChars o t).1.length)
        (requiredChars o t).2).1)
    (fillChars (generateCharacterSet o) (o.length - (requiredChars o t).1.length)
        (requiredChars o t).2).2

/-- The dash-insertion loop of `generatePassword`: walking the string with
index `i`, emit a `-` before the character at every index `i > 0` with
`i % di = 0`. -/
def insertDashesAux (di : ℕ) : ℕ → List Char → List Char
  | _, [] => []
  | i, c :: cs =>
      if 0 < i ∧ i % di = 0 then '-' :: c :: insertDashesAux di (i + 1) cs
      else c :: insertDashesAux di (i + 1) cs

/-- The final password string of password mode: the shuffled string, with
dashes inserted every `⌊length / 4⌋` characters when `includeDashes` is set
and the shuffled length exceeds 8. -/
def passwordChars (o : PasswordOptions) (t : List ℕ) : List Char :=
  if o.includeDashes ∧ 8 < (preDashPassword o t).1.length then
    insertDashesAux ((preDashPassword o t).1.length / 4) 0 (preDashPassword o t).1
  else (preDashPassword o t).1

/-- `Math.max(4, Math.min(8, Math.floor(options.length / 4)))`, the passphrase
word count. -/
def wordCount (len : ℕ) : ℕ := max 4 (min 8 (len / 4))

/-- The passphrase token list: `n` tokens, each a uniformly drawn word of
`WORD_LIST` immediately followed by the decimal rendering of a draw in
`[0, 100)`, with the remaining tape. -/
def passphraseWords : ℕ → List ℕ → List (List Char) × List ℕ
  | 0, t => ([], t)
  | n + 1, t =>
      (((WORD_LIST.getD (t.headI % WORD_LIST.length) "").toList ++
          (Nat.repr (t.tail.headI % 100)).toList) ::
        (passphraseWords n t.tail.tail).1,
       (passphraseWords n t.tail.tail).2)

/-- `Array.prototype.join("-")` on a list of tokens: the tokens separated by
single `-` characters. -/
def joinDash : List (List Char) → List Char
  | [] => []
  | [w] => w
  | w :: ws => w ++ '-' :: joinDash ws

/-- The consecutive blocks of `di` characters of a string (the last block may
be shorter).  Used to characterise where the dash-insertion loop places its
separators. -/
def chunksOf (di : ℕ) : List Char → List (List Char)
  | [] => []
  | c :: cs => (c :: cs.take (di - 1)) :: chunksOf di (cs.drop (di - 1))
termination_by l => l.length
decreasing_by
  simp only [List.length_cons, List.length_drop]
  omega

/-- The number of selected character classes, i.e. how many required
characters `generatePassword` pushes. -/
def flagCount (o : PasswordOptions) : ℕ :=
  (if o.includeLowercase then 1 else 0) + (if o.includeUppercase then 1 else 0) +
  (if o.includeNumbers then 1 else 0) + (if o.includeSymbols then 1 else 0)

/-- The length of the password before dash insertion: the required characters
plus the fill up to `options.length` (the fill loop runs zero iterations when
the required characters already reach `options.length`). -/
def preLen (o : PasswordOptions) : ℕ := max (flagCount o) o.length

/-- How many dash separators the dash-insertion loop adds: one for every index
`i ∈ [1, preLen)` with `i % (preLen / 4) = 0`. -/
def dashCount (o : PasswordOptions) : ℕ :=
  if o.includeDashes ∧ 8 < preLen o then (preLen o - 1) / (preLen o / 4) else 0

/-- `generatePassword()`: the passphrase branch joins `wordCount` tokens with
dashes and estimates entropy with the charset argument `"62"`; the password
branch returns the zero record on an empty charset and otherwise assembles,
shuffles, dash-formats and scores the secret. -/
noncomputable def generatePassword (mode : PasswordType) (o : PasswordOptions)
    (t : List ℕ) : GeneratedPassword :=
  match mode with
  | .passphrase =>
      { password := joinDash (passphraseWords (wordCount o.length) t).1
        strength := getPasswordStrength
          (calculateEntropy (joinDash (passphraseWords (wordCount o.length) t).1) "62".toList)
        entropy := calculateEntropy (joinDash (passphraseWords (wordCount o.length) t).1) "62".toList
        type := .passphrase }
  | .password =>
      if generateCharacterSet o = [] then
        { password := [], strength := 0, entropy := 0, type := .password }
      else
        { password := passwordChars o t
          strength := getPasswordStrength
            (calculateEntropy (passwordChars o t) (generateCharacterSet o))
          entropy := calculateEntropy (passwordChars o t) (generateCharacterSet o)
          type := .password }

/-! ## Basic lemmas about the drawing primitives -/

theorem getD_mem {α : Type} (l : List α) (i : ℕ) (d : α) (h : i < l.length) :
    l.getD i d ∈ l := by
  rw [List.getD_eq_getElem l d h]
  exact List.getElem_mem h

theorem drawReq_snd (flag : Bool) (seed : List Char) (n : ℕ) (t : List ℕ) :
    (drawReq flag seed n t).2 = if flag then t.tail else t := by
  cases flag <;> simp [drawReq]

theorem drawReq_length (flag : Bool) (seed : List Char) (n : ℕ) (t : List ℕ) :
    (drawReq flag seed n t).1.length = if flag then 1 else 0 := by
  cases flag <;> simp [drawReq]

theorem drawReq_mem (seed : List Char) (n : ℕ) (t : List ℕ)
    (hn : seed.length = n) (hpos : 0 < n) :
    ∃ c ∈ (drawReq true seed n t).1, c ∈ seed := by
  refine ⟨seed.getD (t.headI % n) ' ', by simp [drawReq], ?_⟩
  exact getD_mem seed _ ' ' (by rw [hn]; exact Nat.mod_lt _ hpos)

theorem drawReq_subset (flag : Bool) (seed : List Char) (n : ℕ) (t : List ℕ)
    (hn : seed.length = n) (hpos : 0 < n) :
    ∀ c ∈ (drawReq flag seed n t).1, c ∈ seed := by
  cases flag
  · simp [drawReq]
  · intro c hc
    simp only [drawReq, if_pos, List.mem_singleton] at hc
    subst hc
    exact getD_mem seed _ ' ' (by rw [hn]; exact Nat.mod_lt _ hpos)

theorem drawSeq_snd (p : List Char × List ℕ) (flag : Bool) (seed : List Char) (n : ℕ) :
    (drawSeq p flag seed n).2 = if flag then p.2.tail else p.2 := by
  simp [drawSeq, drawReq_snd]

theorem drawSeq_length (p : List Char × List ℕ) (flag : Bool) (seed : List Char) (n : ℕ) :
    (drawSeq p flag seed n).1.length = p.1.length + (if flag then 1 else 0) := by
  simp [drawSeq, drawReq_length]

theorem drawSeq_mem_left (p : List Char × List ℕ) (flag : Bool) (seed : List Char) (n : ℕ)
    {c : Char} (hc : c ∈ p.1) : c ∈ (drawSeq p flag seed n).1 :=
  List.mem_append_left _ hc

theorem drawSeq_mem_new (p : List Char × List ℕ) (seed : List Char) (n : ℕ)
    (hn : seed.length = n) (hpos : 0 < n) :
    ∃ c ∈ (drawSeq p true seed n).1, c ∈ seed := by
  obtain ⟨c, hc, hcs⟩ := drawReq_mem seed n p.2 hn hpos
  exact ⟨c, List.mem_append_right _ hc, hcs⟩

/-! ## The shuffle model is a permutation -/

theorem insertCmp_perm (a : Char) : ∀ (l : List Char) (t : List ℕ),
    (insertCmp a l t).1.Perm (a :: l) := by
  intro l
  induction l with
  | nil => intro t; simp [insertCmp]
  | cons b bs ih =>
      intro t
      by_cases h : ((t.headI % 3 : ℕ) : ℤ) - 1 ≤ 0
      · simp only [insertCmp, if_pos h]
        exact List.Perm.refl _
      · simp only [insertCmp, if_neg h]
        exact ((ih t.tail).cons b).trans (List.Perm.swap a b bs)

theorem sortCmp_perm : ∀ (l : List Char) (t : List ℕ), (sortCmp l t).1.Perm l := by
  intro l
  induction l with
  | nil => intro t; simp [sortCmp]
  | cons a as ih =>
      intro t
      exact (insertCmp_perm a (sortCmp as t).1 (sortCmp as t).2).trans ((ih t).cons a)

/-! ## Lengths of the assembly phases -/

theorem fillChars_length (charset : List Char) :
    ∀ (n : ℕ) (t : List ℕ), (fillChars charset n t).1.length = n := by
  intro n
  induction n with
  | zero => intro t; simp [fillChars]
  | succ n ih => intro t; simp [fillChars, ih]

theorem requiredChars_length (o : PasswordOptions) (t : List ℕ) :
    (requiredChars o t).1.length = flagCount o := by
  simp only [requiredChars, drawSeq_length, flagCount, List.length_nil]
  omega

theorem requiredChars_snd (o : PasswordOptions) (t : List ℕ) :
    (requiredChars o t).2 = t.drop (flagCount o) := by
  simp only [requiredChars, drawSeq_snd, flagCount]
  cases o.includeLowercase <;> cases o.includeUppercase <;>
    cases o.includeNumbers <;> cases o.includeSymbols <;>
    simp [← List.drop_one, List.drop_drop]

theorem preDashPassword_length (o : PasswordOptions) (t : List ℕ) :
    (preDashPassword o t).1.length = preLen o := by
  simp only [preDashPassword]
  rw [(sortCmp_perm _ _).length_eq, List.length_append, fillChars_length,
    requiredChars_length]
  simp only [preLen]
  omega

theorem preDashPassword_mem_req (o : PasswordOptions) (t : List ℕ) {c : Char}
    (hc : c ∈ (requiredChars o t).1) : c ∈ (preDashPassword o t).1 := by
  have hp := sortCmp_perm ((requiredChars o t).1 ++
      (fillChars (generateCharacterSet o) (o.length - (requiredChars o t).1.length)
        (requiredChars o t).2).1)
      (fillChars (generateCharacterSet o) (o.length - (requiredChars o t).1.length)
        (requiredChars o t).2).2
  exact (hp.mem_iff).mpr (List.mem_append_left _ hc)

/-! ## The dash-insertion loop characterised by chunks -/

theorem insertDashesAux_congr (di : ℕ) : ∀ (l : List Char) (i j : ℕ), 0 < i → 0 < j →
    i % di = j % di → insertDashesAux di i l = insertDashesAux di j l := by
  intro l
  induction l with
  | nil => intro i j _ _ _; rfl
  | cons c cs ih =>
      intro i j hi hj hij
      have hnext : (i + 1) % di = (j + 1) % di := by
        rw [Nat.add_mod i 1 di, Nat.add_mod j 1 di, hij]
      have hcond : (0 < i ∧ i % di = 0) ↔ (0 < j ∧ j % di = 0) := by
        constructor
        · rintro ⟨-, h⟩; exact ⟨hj, hij ▸ h⟩
        · rintro ⟨-, h⟩; exact ⟨hi, hij.symm ▸ h⟩
      by_cases h : 0 < j ∧ j % di = 0
      · rw [insertDashesAux, insertDashesAux, if_pos (hcond.mpr h), if_pos h,
          ih (i + 1) (j + 1) (Nat.succ_pos i) (Nat.succ_pos j) hnext]
      · rw [insertDashesAux, insertDashesAux, if_neg (fun hh => h (hcond.mp hh)), if_neg h,
          ih (i + 1) (j + 1) (Nat.succ_pos i) (Nat.succ_pos j) hnext]

theorem insertDashesAux_phase (di : ℕ) : ∀ (k : ℕ) (l : List Char) (i : ℕ), 0 < i →
    i + k = di →
    insertDashesAux di i l = l.take k ++ insertDashesAux di di (l.drop k) := by
  intro k
  induction k with
  | zero =>
      intro l i _ hik
      simp only [List.take_zero, List.drop_zero, List.nil_append]
      rw [Nat.add_zero] at hik
      rw [hik]
  | succ k ih =>
      intro l i hi hik
      cases l with
      | nil => simp [insertDashesAux]
      | cons c cs =>
          have hilt : i < di := by omega
          have hmod : ¬(0 < i ∧ i % di = 0) := by
            rintro ⟨-, h⟩
            rw [Nat.mod_eq_of_lt hilt] at h
            omega
          rw [insertDashesAux, if_neg hmod, List.take_succ_cons, List.drop_succ_cons,
            ih cs (i + 1) (Nat.succ_pos i) (by omega), List.cons_append]

theorem insertDashesAux_at_multiple (di : ℕ) (hdi : 0 < di) (c : Char) (cs : List Char) :
    insertDashesAux di di (c :: cs) = '-' :: c :: insertDashesAux di (di + 1) cs := by
  rw [insertDashesAux, if_pos ⟨hdi, Nat.mod_self di⟩]

theorem chunksOf_eq_nil_iff (di : ℕ) (l : List Char) : chunksOf di l = [] ↔ l = [] := by
  cases l with
  | nil => simp [chunksOf]
  | cons c cs => simp [chunksOf]

theorem insertDashesAux_eq_joinDash_chunksOf (di : ℕ) (hdi : 0 < di) :
    ∀ (n : ℕ) (l : List Char), l.length ≤ n →
    insertDashesAux di 0 l = joinDash (chunksOf di l) := by
  intro n
  induction n with
  | zero =>
      intro l hl
      rw [List.length_eq_zero.mp (Nat.le_zero.mp hl)]
      simp [insertDashesAux, chunksOf, joinDash]
  | succ n ih =>
      intro l hl
      cases l with
      | nil => simp [insertDashesAux, chunksOf, joinDash]
      | cons c cs =>
          have hstep : insertDashesAux di 0 (c :: cs) = c :: insertDashesAux di 1 cs := by
            rw [insertDashesAux, if_neg (by omega)]
          rw [hstep, insertDashesAux_phase di (di - 1) cs 1 Nat.one_pos (by omega),
            chunksOf]
          cases hdrop : cs.drop (di - 1) with
          | nil =>
              simp [insertDashesAux, chunksOf, joinDash]
          | cons d ds =>
              rw [insertDashesAux_at_multiple di hdi d ds]
              have hlen : (d :: ds).length ≤ n := by
                have h1 : (cs.drop (di - 1)).length ≤ cs.length := by
                  rw [List.length_drop]; omega
                rw [hdrop] at h1
                simp only [List.length_cons] at hl h1 ⊢
                omega
              have hrec := ih (d :: ds) hlen
              have hone : insertDashesAux di (di + 1) ds = insertDashesAux di 1 ds :=
                insertDashesAux_congr di ds (di + 1) 1 (by omega) Nat.one_pos
                  (Nat.add_mod_left di 1)
              have hrec1 : insertDashesAux di 0 (d :: ds) = d :: insertDashesAux di 1 ds := by
                rw [insertDashesAux, if_neg (by omega)]
              have hne : chunksOf di (d :: ds) ≠ [] := by
                simp [chunksOf_eq_nil_iff]
              cases hch : chunksOf di (d :: ds) with
              | nil => exact absurd hch hne
              | cons w ws =>
                  rw [hch] at hrec
                  have hjoin : joinDash ((c :: cs.take (di - 1)) :: w :: ws) =
                      (c :: cs.take (di - 1)) ++ '-' :: joinDash (w :: ws) := rfl
                  rw [hjoin, ← hrec, hrec1, ← hone]
                  simp

theorem chunksOf_flatten (di : ℕ) : ∀ (n : ℕ) (l : List Char), l.length ≤ n →
    (chunksOf di l).flatten = l := by
  intro n
  induction n with
  | zero =>
      intro l hl
      rw [List.length_eq_zero.mp (Nat.le_zero.mp hl)]
      simp [chunksOf]
  | succ n ih =>
      intro l hl
      cases l with
      | nil => simp [chunksOf]
      | cons c cs =>
          have hlen : (cs.drop (di - 1)).length ≤ n := by
            rw [List.length_drop]
            simp only [List.length_cons] at hl
            omega
          rw [chunksOf, List.flatten_cons, ih (cs.drop (di - 1)) hlen]
          simp [List.take_append_drop]

theorem chunksOf_length_eq (di : ℕ) (hdi : 0 < di) : ∀ (n : ℕ) (l : List Char),
    l.length ≤ n → l ≠ [] → (chunksOf di l).length = (l.length - 1) / di + 1 := by
  intro n
  induction n with
  | zero =>
      intro l hl hne
      exact absurd (List.length_eq_zero.mp (Nat.le_zero.mp hl)) hne
  | succ n ih =>
      intro l hl hne
      cases l with
      | nil => exact absurd rfl hne
      | cons c cs =>
          rw [chunksOf]
          cases hdrop : cs.drop (di - 1) with
          | nil =>
              have hcs : cs.length ≤ di - 1 := List.drop_eq_nil_iff.mp hdrop
              have hdiv : cs.length / di = 0 := Nat.div_eq_of_lt (by omega)
              simp [chunksOf, hdiv]
          | cons d ds =>
              have hlt : di - 1 < cs.length := by
                by_contra hcon
                rw [List.drop_eq_nil_iff.mpr (by omega)] at hdrop
                exact List.cons_ne_nil d ds hdrop.symm
              have hlen : (cs.drop (di - 1)).length ≤ n := by
                rw [List.length_drop]
                simp only [List.length_cons] at hl
                omega
              have hrec := ih (cs.drop (di - 1)) hlen (by rw [hdrop]; exact List.cons_ne_nil d ds)
              rw [hdrop] at hrec
              have hle : di ≤ cs.length := by omega
              have heq : (d :: ds).length - 1 = cs.length - di := by
                rw [← hdrop, List.length_drop]
                omega
              rw [List.length_cons, hrec, heq]
              simp only [List.length_cons, Nat.add_sub_cancel]
              rw [Nat.div_eq_sub_div hdi hle]

theorem chunksOf_sizes (di : ℕ) (hdi : 0 < di) : ∀ (n : ℕ) (l : List Char),
    l.length ≤ n → ∀ w ∈ chunksOf di l, w ≠ [] ∧ w.length ≤ di := by
  intro n
  induction n with
  | zero =>
      intro l hl
      rw [List.length_eq_zero.mp (Nat.le_zero.mp hl)]
      simp [chunksOf]
  | succ n ih =>
      intro l hl w hw
      cases l with
      | nil => simp [chunksOf] at hw
      | cons c cs =>
          rw [chunksOf] at hw
          rcases List.mem_cons.mp hw with hw | hw
          · subst hw
            refine ⟨List.cons_ne_nil c _, ?_⟩
            simp only [List.length_cons, List.length_take]
            omega
          · have hlen : (cs.drop (di - 1)).length ≤ n := by
              rw [List.length_drop]
              simp only [List.length_cons] at hl
              omega
            exact ih (cs.drop (di - 1)) hlen w hw

theorem chunksOf_full_blocks (di : ℕ) (hdi : 0 < di) : ∀ (n : ℕ) (l : List Char),
    l.length ≤ n → ∀ k, k + 1 < (chunksOf di l).length →
    ((chunksOf di l).getD k []).length = di := by
  intro n
  induction n with
  | zero =>
      intro l hl k hk
      rw [List.length_eq_zero.mp (Nat.le_zero.mp hl)] at hk
      simp [chunksOf] at hk
  | succ n ih =>
      intro l hl k hk
      cases l with
      | nil => simp [chunksOf] at hk
      | cons c cs =>
          rw [chunksOf] at hk ⊢
          have hlen : (cs.drop (di - 1)).length ≤ n := by
            rw [List.length_drop]
            simp only [List.length_cons] at hl
            omega
          cases k with
          | zero =>
              have hne : chunksOf di (cs.drop (di - 1)) ≠ [] := by
                simp only [List.length_cons] at hk
                intro hcon
                rw [hcon] at hk
                simp at hk
              have hdropne : cs.drop (di - 1) ≠ [] := by
                intro hcon
                rw [hcon] at hne
                exact hne (by simp [chunksOf])
              have hlt : di - 1 < cs.length := by
                by_contra hcon
                exact hdropne (List.drop_eq_nil_iff.mpr (by omega))
              simp only [List.getD_cons_zero, List.length_cons, List.length_take]
              omega
          | succ k =>
              simp only [List.getD_cons_succ]
              simp only [List.length_cons] at hk
              exact ih (cs.drop (di - 1)) hlen k (by omega)

theorem chunksOf_headI_take (di : ℕ) (hdi : 0 < di) (c : Char) (cs : List Char) :
    (chunksOf di (c :: cs)).headI = (c :: cs).take di := by
  rw [chunksOf]
  cases hdi' : di with
  | zero => omega
  | succ d =>
      simp [List.take_succ_cons]

theorem joinDash_length : ∀ ws : List (List Char),
    (joinDash ws).length = (ws.map List.length).sum + (ws.length - 1) := by
  intro ws
  induction ws with
  | nil => simp [joinDash]
  | cons w ws ih =>
      cases ws with
      | nil => simp [joinDash]
      | cons v vs =>
          have hj : joinDash (w :: v :: vs) = w ++ '-' :: joinDash (v :: vs) := rfl
          rw [hj]
          simp only [List.length_append, List.length_cons, ih, List.map_cons, List.sum_cons,
            List.length_cons]
          omega

theorem joinDash_count_dash : ∀ ws : List (List Char), (∀ w ∈ ws, ('-' : Char) ∉ w) →
    (joinDash ws).count '-' = ws.length - 1 := by
  intro ws
  induction ws with
  | nil => simp [joinDash]
  | cons w ws ih =>
      intro hws
      cases ws with
      | nil =>
          have hw : ('-' : Char) ∉ w := hws w (List.mem_singleton_self w)
          simp [joinDash, List.count_eq_zero.mpr hw]
      | cons v vs =>
          have hj : joinDash (w :: v :: vs) = w ++ '-' :: joinDash (v :: vs) := rfl
          have hw : ('-' : Char) ∉ w := hws w (List.mem_cons_self w _)
          have hrest := ih (fun u hu => hws u (List.mem_cons_of_mem w hu))
          rw [hj, List.count_append, List.count_eq_zero.mpr hw, List.count_cons_self,
            hrest]
          simp only [List.length_cons]
          omega

theorem insertDashesAux_mem (di : ℕ) {c : Char} : ∀ (l : List Char) (i : ℕ), c ∈ l →
    c ∈ insertDashesAux di i l := by
  intro l
  induction l with
  | nil => intro i h; simp at h
  | cons b bs ih =>
      intro i h
      rw [insertDashesAux]
      rcases List.mem_cons.mp h with h | h
      · subst h
        by_cases hc : 0 < i ∧ i % di = 0 <;> simp [hc]
      · by_cases hc : 0 < i ∧ i % di = 0 <;> simp [hc, ih (i + 1) h]

theorem insertDashesAux_ne_nil (di : ℕ) (i : ℕ) (c : Char) (cs : List Char) :
    insertDashesAux di i (c :: cs) ≠ [] := by
  rw [insertDashesAux]
  by_cases hc : 0 < i ∧ i % di = 0 <;> simp [hc]

theorem insertDashesAux_zero_cons (di : ℕ) (c : Char) (cs : List Char) :
    insertDashesAux di 0 (c :: cs) = c :: insertDashesAux di 1 cs := by
  rw [insertDashesAux, if_neg (by omega)]

/-! ## The charset is nonempty when a class is selected -/

theorem mem_generateCharacterSet (o : PasswordOptions) (c : Char)
    (hin : c ∈ (if o.includeLowercase then lowerSeed else []) ++
      (if o.includeUppercase then upperSeed else []) ++
      (if o.includeNumbers then numberSeed else []) ++
      (if o.includeSymbols then symbolSeed else []))
    (hamb : decide (c ∉ ambiguousSeed) = true) : c ∈ generateCharacterSet o := by
  simp only [generateCharacterSet]
  by_cases hx : o.excludeAmbiguous = true
  · rw [if_pos hx]
    exact List.mem_filter.mpr ⟨hin, hamb⟩
  · rw [if_neg hx]
    exact hin

theorem generateCharacterSet_ne_nil (o : PasswordOptions)
    (h : o.includeLowercase = true ∨ o.includeUppercase = true ∨
      o.includeNumbers = true ∨ o.includeSymbols = true) :
    generateCharacterSet o ≠ [] := by
  rcases h with h | h | h | h
  · exact List.ne_nil_of_mem (mem_generateCharacterSet o 'a'
      (by simp [h, lowerSeed]) (by decide))
  · exact List.ne_nil_of_mem (mem_generateCharacterSet o 'A'
      (by simp [h, upperSeed]) (by decide))
  · exact List.ne_nil_of_mem (mem_generateCharacterSet o '2'
      (by simp [h, numberSeed]) (by decide))
  · exact List.ne_nil_of_mem (mem_generateCharacterSet o '!'
      (by simp [h, symbolSeed]) (by decide))

/-! ## The required characters cover every selected class -/

theorem requiredChars_mem_lower (o : PasswordOptions) (t : List ℕ)
    (h : o.includeLowercase = true) :
    ∃ c ∈ (requiredChars o t).1, c ∈ lowerSeed := by
  unfold requiredChars
  rw [h]
  obtain ⟨c, hc, hcs⟩ := drawSeq_mem_new ([], t) lowerSeed 26 (by decide) (by omega)
  exact ⟨c, drawSeq_mem_left _ _ _ _ (drawSeq_mem_left _ _ _ _
    (drawSeq_mem_left _ _ _ _ hc)), hcs⟩

theorem requiredChars_mem_upper (o : PasswordOptions) (t : List ℕ)
    (h : o.includeUppercase = true) :
    ∃ c ∈ (requiredChars o t).1, c ∈ upperSeed := by
  unfold requiredChars
  rw [h]
  obtain ⟨c, hc, hcs⟩ := drawSeq_mem_new (drawSeq ([], t) o.includeLowercase lowerSeed 26)
    upperSeed 26 (by decide) (by omega)
  exact ⟨c, drawSeq_mem_left _ _ _ _ (drawSeq_mem_left _ _ _ _ hc), hcs⟩

theorem requiredChars_mem_numbers (o : PasswordOptions) (t : List ℕ)
    (h : o.includeNumbers = true) :
    ∃ c ∈ (requiredChars o t).1, c ∈ numberSeed := by
  unfold requiredChars
  rw [h]
  obtain ⟨c, hc, hcs⟩ := drawSeq_mem_new (drawSeq (drawSeq ([], t)
    o.includeLowercase lowerSeed 26) o.includeUppercase upperSeed 26)
    numberSeed 10 (by decide) (by omega)
  exact ⟨c, drawSeq_mem_left _ _ _ _ hc, hcs⟩

theorem requiredChars_mem_symbols (o : PasswordOptions) (t : List ℕ)
    (h : o.includeSymbols = true) :
    ∃ c ∈ (requiredChars o t).1, c ∈ reqSymbolSeed := by
  unfold requiredChars
  rw [h]
  exact drawSeq_mem_new (drawSeq (drawSeq (drawSeq ([], t)
    o.includeLowercase lowerSeed 26) o.includeUppercase upperSeed 26)
    o.includeNumbers numberSeed 10) reqSymbolSeed 8 (by decide) (by omega)

theorem reqSymbolSeed_subset_symbolSeed : ∀ c ∈ reqSymbolSeed, c ∈ symbolSeed := by
  decide

/-! ## The final password string: length and membership -/

theorem passwordChars_mem (o : PasswordOptions) (t : List ℕ) {c : Char}
    (hc : c ∈ (preDashPassword o t).1) : c ∈ passwordChars o t := by
  unfold passwordChars
  by_cases h : o.includeDashes = true ∧ 8 < (preDashPassword o t).1.length
  · rw [if_pos h]
    exact insertDashesAux_mem _ _ 0 hc
  · rw [if_neg h]
    exact hc

theorem passwordChars_ne_nil (o : PasswordOptions) (t : List ℕ)
    (hne : (preDashPassword o t).1 ≠ []) : passwordChars o t ≠ [] := by
  unfold passwordChars
  by_cases h : o.includeDashes = true ∧ 8 < (preDashPassword o t).1.length
  · rw [if_pos h]
    cases hpre : (preDashPassword o t).1 with
    | nil => exact absurd hpre hne
    | cons c cs => exact insertDashesAux_ne_nil _ 0 c cs
  · rw [if_neg h]
    exact hne

theorem preDashPassword_ne_nil (o : PasswordOptions) (t : List ℕ)
    (h : o.includeLowercase = true ∨ o.includeUppercase = true ∨
      o.includeNumbers = true ∨ o.includeSymbols = true) :
    (preDashPassword o t).1 ≠ [] := by
  rw [← List.length_pos, preDashPassword_length]
  have : 0 < flagCount o := by
    unfold flagCount
    rcases h with h | h | h | h <;> rw [h] <;> simp
  unfold preLen
  omega

theorem passwordChars_length (o : PasswordOptions) (t : List ℕ) :
    (passwordChars o t).length = preLen o + dashCount o := by
  unfold passwordChars dashCount
  set L := (preDashPassword o t).1 with hL
  have hpl : L.length = preLen o := by
    rw [hL]
    exact preDashPassword_length o t
  by_cases h : o.includeDashes = true ∧ 8 < L.length
  · have hcond : o.includeDashes = true ∧ 8 < preLen o := by rwa [hpl] at h
    rw [if_pos h, if_pos hcond]
    have hdi : 0 < L.length / 4 := by omega
    have hne : L ≠ [] := by
      rw [← List.length_pos]
      omega
    rw [insertDashesAux_eq_joinDash_chunksOf _ hdi L.length _ le_rfl,
      joinDash_length, ← List.length_flatten,
      chunksOf_flatten _ L.length _ le_rfl,
      chunksOf_length_eq _ hdi L.length _ le_rfl hne, hpl]
    simp only [Nat.add_sub_cancel]
  · have hcond : ¬(o.includeDashes = true ∧ 8 < preLen o) := by rwa [hpl] at h
    rw [if_neg h, if_neg hcond, hpl]
    omega

/-! ## Passphrase tokens -/

theorem passphraseWords_length : ∀ (n : ℕ) (t : List ℕ),
    (passphraseWords n t).1.length = n := by
  intro n
  induction n with
  | zero => intro t; simp [passphraseWords]
  | succ n ih => intro t; simp [passphraseWords, ih]

theorem passphraseWords_shape : ∀ (n : ℕ) (t : List ℕ),
    ∀ tok ∈ (passphraseWords n t).1, ∃ w num, w ∈ WORD_LIST ∧ num < 100 ∧
      tok = w.toList ++ (Nat.repr num).toList := by
  intro n
  induction n with
  | zero => intro t tok h; simp [passphraseWords] at h
  | succ n ih =>
      intro t tok h
      rw [passphraseWords] at h
      rcases List.mem_cons.mp h with h | h
      · refine ⟨WORD_LIST.getD (t.headI % WORD_LIST.length) "", t.tail.headI % 100,
          ?_, Nat.mod_lt _ (by omega), h⟩
        exact getD_mem WORD_LIST _ "" (Nat.mod_lt _ (by decide))
      · exact ih t.tail.tail tok h

theorem wordList_no_dash : ∀ w ∈ WORD_LIST, ('-' : Char) ∉ w.toList := by
  decide

theorem repr_lt_100_no_dash : ∀ num : ℕ, num < 100 → ('-' : Char) ∉ (Nat.repr num).toList := by
  have h : ∀ i : Fin 100, ('-' : Char) ∉ (Nat.repr i.val).toList := by decide
  intro num hn
  exact h ⟨num, hn⟩

theorem passphraseWords_no_dash (n : ℕ) (t : List ℕ) :
    ∀ tok ∈ (passphraseWords n t).1, ('-' : Char) ∉ tok := by
  intro tok htok hdash
  obtain ⟨w, num, hw, hnum, heq⟩ := passphraseWords_shape n t tok htok
  rw [heq] at hdash
  rcases List.mem_append.mp hdash with hd | hd
  · exact wordList_no_dash w hw hd
  · exact repr_lt_100_no_dash num hnum hd

/-! ## Projections of the result record -/

theorem generatePassword_pw_secret (o : PasswordOptions) (t : List ℕ)
    (hcs : ¬generateCharacterSet o = []) :
    (generatePassword .password o t).password = passwordChars o t := by
  simp only [generatePassword]
  rw [if_neg hcs]

theorem generatePassword_pw_entropy (o : PasswordOptions) (t : List ℕ)
    (hcs : ¬generateCharacterSet o = []) :
    (generatePassword .password o t).entropy =
      calculateEntropy (passwordChars o t) (generateCharacterSet o) := by
  simp only [generatePassword]
  rw [if_neg hcs]

theorem generatePassword_pw_strength (o : PasswordOptions) (t : List ℕ)
    (hcs : ¬generateCharacterSet o = []) :
    (generatePassword .password o t).strength =
      getPasswordStrength (calculateEntropy (passwordChars o t) (generateCharacterSet o)) := by
  simp only [generatePassword]
  rw [if_neg hcs]

theorem generatePassword_pp_secret (o : PasswordOptions) (t : List ℕ) :
    (generatePassword .passphrase o t).password =
      joinDash (passphraseWords (wordCount o.length) t).1 := rfl

theorem generatePassword_pp_entropy (o : PasswordOptions) (t : List ℕ) :
    (generatePassword .passphrase o t).entropy =
      calculateEntropy (joinDash (passphraseWords (wordCount o.length) t).1) "62".toList := rfl

/-! ## Claim theorems -/

/-- C6: for every options record in which all four character-class flags are
false, password-mode generation returns the zero-value result with an empty
secret, `entropyBits = 0` and `strengthTier = 0`; the degenerate case is a
defined return value of the total generation function, not an error. -/
theorem C6_no_flags_zero_result (o : PasswordOptions) (t : List ℕ)
    (hl : o.includeLowercase = false) (hu : o.includeUppercase = false)
    (hn : o.includeNumbers = false) (hs : o.includeSymbols = false) :
    generatePassword .password o t =
      { password := [], strength := 0, entropy := 0, type := .password } := by
  have hcs : generateCharacterSet o = [] := by
    simp [generateCharacterSet, hl, hu, hn, hs]
  simp only [generatePassword]
  rw [if_pos hcs]

/-- C6 witness: the zero-value result at a concrete all-false record and the
empty tape. -/
theorem C6_no_flags_zero_result_witness :
    generatePassword .password ⟨16, false, false, false, false, false, false⟩ [] =
      { password := [], strength := 0, entropy := 0, type := .password } :=
  C6_no_flags_zero_result ⟨16, false, false, false, false, false, false⟩ [] rfl rfl rfl rfl

/-- C7: `getPasswordStrength` is a total deterministic function (a Lean
function of the entropy argument alone), monotone non-decreasing, and the
boundary inputs 27.999, 28, 34.999, 35, 58.999, 59, 126.999, 127 map to tiers
1, 2, 2, 3, 3, 4, 4, 5. -/
theorem C7_strength_monotone_and_boundaries :
    (∀ a b : ℚ, a ≤ b → getPasswordStrength a ≤ getPasswordStrength b) ∧
    getPasswordStrength (27.999 : ℚ) = 1 ∧ getPasswordStrength (28 : ℚ) = 2 ∧
    getPasswordStrength (34.999 : ℚ) = 2 ∧ getPasswordStrength (35 : ℚ) = 3 ∧
    getPasswordStrength (58.999 : ℚ) = 3 ∧ getPasswordStrength (59 : ℚ) = 4 ∧
    getPasswordStrength (126.999 : ℚ) = 4 ∧ getPasswordStrength (127 : ℚ) = 5 := by
  refine ⟨?_, by norm_num [getPasswordStrength], by norm_num [getPasswordStrength],
    by norm_num [getPasswordStrength], by norm_num [getPasswordStrength],
    by norm_num [getPasswordStrength], by norm_num [getPasswordStrength],
    by norm_num [getPasswordStrength], by norm_num [getPasswordStrength]⟩
  intro a b hab
  unfold getPasswordStrength
  split_ifs <;> first | omega | (exfalso; linarith)

/-- C10: in passphrase mode the result record (secret, entropy and strength
tier alike) depends only on `options.length` and the random draws: records
differing in every class/ambiguity/dash flag produce identical results on the
same tape. -/
theorem C10_passphrase_ignores_class_flags (o1 o2 : PasswordOptions) (t : List ℕ)
    (h : o1.length = o2.length) :
    generatePassword .passphrase o1 t = generatePassword .passphrase o2 t := by
  simp only [generatePassword, h]

/-- C10 witness: two concrete records with equal length and every flag
differing give identical passphrase results on the empty tape. -/
theorem C10_passphrase_ignores_class_flags_witness :
    generatePassword .passphrase ⟨16, true, true, true, true, false, false⟩ [] =
      generatePassword .passphrase ⟨16, false, false, false, false, true, true⟩ [] :=
  C10_passphrase_ignores_class_flags ⟨16, true, true, true, true, false, false⟩
    ⟨16, false, false, false, false, true, true⟩ [] rfl

/-- C5: with at least one class flag true, the password-mode secret is
non-empty for every tape (every outcome of the Randomness Source), and after
removing dash characters it contains at least one character from every
selected class's seed alphabet. -/
theorem C5_class_coverage (o : PasswordOptions) (t : List ℕ)
    (h : o.includeLowercase = true ∨ o.includeUppercase = true ∨
      o.includeNumbers = true ∨ o.includeSymbols = true) :
    (generatePassword .password o t).password ≠ [] ∧
    (o.includeLowercase = true →
      ∃ c ∈ (generatePassword .password o t).password.filter (fun c => c != '-'),
        c ∈ lowerSeed) ∧
    (o.includeUppercase = true →
      ∃ c ∈ (generatePassword .password o t).password.filter (fun c => c != '-'),
        c ∈ upperSeed) ∧
    (o.includeNumbers = true →
      ∃ c ∈ (generatePassword .password o t).password.filter (fun c => c != '-'),
        c ∈ numberSeed) ∧
    (o.includeSymbols = true →
      ∃ c ∈ (generatePassword .password o t).password.filter (fun c => c != '-'),
        c ∈ symbolSeed) := by
  have hcs : ¬generateCharacterSet o = [] := generateCharacterSet_ne_nil o h
  rw [generatePassword_pw_secret o t hcs]
  refine ⟨passwordChars_ne_nil o t (preDashPassword_ne_nil o t h), ?_, ?_, ?_, ?_⟩
  · intro hflag
    obtain ⟨c, hc, hseed⟩ := requiredChars_mem_lower o t hflag
    refine ⟨c, List.mem_filter.mpr ⟨passwordChars_mem o t (preDashPassword_mem_req o t hc), ?_⟩,
      hseed⟩
    have : c ≠ '-' := fun he => absurd (he ▸ hseed) (by decide)
    simp [this]
  · intro hflag
    obtain ⟨c, hc, hseed⟩ := requiredChars_mem_upper o t hflag
    refine ⟨c, List.mem_filter.mpr ⟨passwordChars_mem o t (preDashPassword_mem_req o t hc), ?_⟩,
      hseed⟩
    have : c ≠ '-' := fun he => absurd (he ▸ hseed) (by decide)
    simp [this]
  · intro hflag
    obtain ⟨c, hc, hseed⟩ := requiredChars_mem_numbers o t hflag
    refine ⟨c, List.mem_filter.mpr ⟨passwordChars_mem o t (preDashPassword_mem_req o t hc), ?_⟩,
      hseed⟩
    have : c ≠ '-' := fun he => absurd (he ▸ hseed) (by decide)
    simp [this]
  · intro hflag
    obtain ⟨c, hc, hseed⟩ := requiredChars_mem_symbols o t hflag
    refine ⟨c, List.mem_filter.mpr ⟨passwordChars_mem o t (preDashPassword_mem_req o t hc), ?_⟩,
      reqSymbolSeed_subset_symbolSeed c hseed⟩
    have : c ≠ '-' := fun he => absurd (he ▸ hseed) (by decide)
    simp [this]

/-- C5 witness: class coverage at a concrete record with all classes selected
and the empty tape. -/
theorem C5_class_coverage_witness :
    (generatePassword .password ⟨6, true, true, true, true, false, false⟩ []).password ≠ [] ∧
    ((⟨6, true, true, true, true, false, false⟩ : PasswordOptions).includeLowercase = true →
      ∃ c ∈ (generatePassword .password ⟨6, true, true, true, true, false, false⟩
          []).password.filter (fun c => c != '-'), c ∈ lowerSeed) ∧
    ((⟨6, true, true, true, true, false, false⟩ : PasswordOptions).includeUppercase = true →
      ∃ c ∈ (generatePassword .password ⟨6, true, true, true, true, false, false⟩
          []).password.filter (fun c => c != '-'), c ∈ upperSeed) ∧
    ((⟨6, true, true, true, true, false, false⟩ : PasswordOptions).includeNumbers = true →
      ∃ c ∈ (generatePassword .password ⟨6, true, true, true, true, false, false⟩
          []).password.filter (fun c => c != '-'), c ∈ numberSeed) ∧
    ((⟨6, true, true, true, true, false, false⟩ : PasswordOptions).includeSymbols = true →
      ∃ c ∈ (generatePassword .password ⟨6, true, true, true, true, false, false⟩
          []).password.filter (fun c => c != '-'), c ∈ symbolSeed) :=
  C5_class_coverage ⟨6, true, true, true, true, false, false⟩ [] (Or.inl rfl)

/-- C9: the passphrase word count is `clamp(⌊length/4⌋, 4, 8)`, hence always
in [4, 8]; every token is a word of the fixed list immediately followed by the
decimal rendering of a number in [0, 100); tokens are joined by single dashes,
so the dash count is `wordCount - 1`, and a length-16 request yields 4 tokens
and exactly 3 dashes. -/
theorem C9_passphrase_structure (o : PasswordOptions) (t : List ℕ) :
    wordCount o.length = max 4 (min 8 (o.length / 4)) ∧
    4 ≤ wordCount o.length ∧ wordCount o.length ≤ 8 ∧
    (generatePassword .passphrase o t).password =
      joinDash (passphraseWords (wordCount o.length) t).1 ∧
    (passphraseWords (wordCount o.length) t).1.length = wordCount o.length ∧
    (∀ tok ∈ (passphraseWords (wordCount o.length) t).1, ∃ w num, w ∈ WORD_LIST ∧
      num < 100 ∧ tok = w.toList ++ (Nat.repr num).toList) ∧
    (generatePassword .passphrase o t).password.count '-' = wordCount o.length - 1 ∧
    (o.length = 16 → wordCount o.length = 4 ∧
      (generatePassword .passphrase o t).password.count '-' = 3) := by
  have hcount : (generatePassword .passphrase o t).password.count '-' =
      wordCount o.length - 1 := by
    rw [generatePassword_pp_secret,
      joinDash_count_dash _ (passphraseWords_no_dash (wordCount o.length) t),
      passphraseWords_length]
  refine ⟨rfl, by unfold wordCount; omega, by unfold wordCount; omega,
    generatePassword_pp_secret o t, passphraseWords_length _ t,
    passphraseWords_shape _ t, hcount, ?_⟩
  intro h16
  rw [hcount, h16]
  constructor <;> rfl

/-- Strength tier of `16·log2 88` bits: between 59 and 127, so tier 4 (needs
`2^59 ≤ 88^16 < 2^127`). -/
theorem getPasswordStrength_16_logb_88 :
    getPasswordStrength ((16 : ℝ) * Real.logb 2 88) = 4 := by
  have hle : (59 : ℝ) ≤ 16 * Real.logb 2 88 := by
    calc (59 : ℝ) = Real.logb 2 ((2 : ℝ) ^ (59 : ℕ)) := by
          rw [Real.logb_pow, Real.logb_self_eq_one (by norm_num)]
          norm_num
      _ ≤ Real.logb 2 ((88 : ℝ) ^ (16 : ℕ)) :=
          (Real.logb_le_logb (by norm_num) (by positivity) (by positivity)).mpr (by norm_num)
      _ = 16 * Real.logb 2 88 := by
          rw [Real.logb_pow]
          norm_num
  have hlt : (16 : ℝ) * Real.logb 2 88 < 127 := by
    calc (16 : ℝ) * Real.logb 2 88 = Real.logb 2 ((88 : ℝ) ^ (16 : ℕ)) := by
          rw [Real.logb_pow]
          norm_num
      _ < Real.logb 2 ((2 : ℝ) ^ (127 : ℕ)) :=
          Real.logb_lt_logb (by norm_num) (by positivity) (by norm_num)
      _ = 127 := by
          rw [Real.logb_pow, Real.logb_self_eq_one (by norm_num)]
          norm_num
  unfold getPasswordStrength
  rw [if_neg (by linarith), if_neg (by linarith), if_neg (by linarith), if_pos (by linarith)]

/-- C3 counterexample: at the options of the concrete scenario the combined
charset has 88 characters (the symbol seed holds 26 characters, not 27), so
its size is not 89. -/
theorem C3_charset_size_not_89 :
    (generateCharacterSet ⟨16, true, true, true, true, false, false⟩).length = 88 ∧
    (generateCharacterSet ⟨16, true, true, true, true, false, false⟩).length ≠ 89 := by
  constructor <;> decide

/-- C3 amended: for the scenario options (length 16, all classes, no ambiguity
filter, no dashes) and every tape, the secret has length 16, the charset has
size 26+26+10+26 = 88, the entropy is `16·log2 88 ≈ 103.4` bits and the
strength tier is 4. -/
theorem C3_concrete_scenario (t : List ℕ) :
    (generatePassword .password ⟨16, true, true, true, true, false, false⟩ t).password.length
      = 16 ∧
    (generateCharacterSet ⟨16, true, true, true, true, false, false⟩).length = 26 + 26 + 10 + 26 ∧
    (generatePassword .password ⟨16, true, true, true, true, false, false⟩ t).entropy =
      16 * Real.logb 2 88 ∧
    (generatePassword .password ⟨16, true, true, true, true, false, false⟩ t).strength = 4 := by
  have hcs : ¬generateCharacterSet ⟨16, true, true, true, true, false, false⟩ = [] := by decide
  have hlen16 : (passwordChars ⟨16, true, true, true, true, false, false⟩ t).length = 16 := by
    rw [passwordChars_length]
    decide
  have hcs88 : (generateCharacterSet ⟨16, true, true, true, true, false, false⟩).length = 88 := by
    decide
  have hent : calculateEntropy (passwordChars ⟨16, true, true, true, true, false, false⟩ t)
      (generateCharacterSet ⟨16, true, true, true, true, false, false⟩) =
      16 * Real.logb 2 88 := by
    rw [calculateEntropy, hlen16, hcs88]
    norm_num
  refine ⟨?_, by decide, ?_, ?_⟩
  · rw [generatePassword_pw_secret _ _ hcs]
    exact hlen16
  · rw [generatePassword_pw_entropy _ _ hcs]
    exact hent
  · rw [generatePassword_pw_strength _ _ hcs, hent]
    exact getPasswordStrength_16_logb_88

/-- C1: at the scenario input the passphrase secret has 39 characters and the
code computes `entropyBits = 39`: `calculateEntropy` is called with the
literal string `"62"` as the charset, whose length is 2, so the estimate is
`length · log2 2 = length`, not the specified `length · log2 62`. -/
theorem C1_passphrase_entropy_evaluates_length :
    (generatePassword .passphrase ⟨16, true, true, true, true, false, false⟩
      []).password.length = 39 ∧
    (generatePassword .passphrase ⟨16, true, true, true, true, false, false⟩ []).entropy = 39 ∧
    (39 : ℝ) ≠ 39 * Real.logb 2 62 := by
  have hlen : (joinDash (passphraseWords (wordCount 16) []).1).length = 39 := by decide
  have hone : Real.logb 2 2 = 1 := Real.logb_self_eq_one (by norm_num)
  refine ⟨by rw [generatePassword_pp_secret]; exact hlen, ?_, ?_⟩
  · rw [generatePassword_pp_entropy, calculateEntropy]
    have h2 : (("62".toList : List Char).length : ℝ) = 2 := by norm_num
    rw [h2, hone, hlen]
    norm_num
  · have hgt : (1 : ℝ) < Real.logb 2 62 := by
      rw [← hone]
      exact Real.logb_lt_logb (by norm_num) (by norm_num) (by norm_num)
    intro heq
    nlinarith

/-- C2 counterexample: at options {length 12, lowercase only, dashes on} and
the all-zero tape the shuffled pre-dash secret has length 12 and the final
secret length 15 (three dashes inserted), and the code's `entropyBits` —
computed from the final, dash-included string — differs from
`pre-dash length · log2(charset size)`. -/
theorem C2_entropy_uses_dashed_length_cex :
    (generatePassword .password ⟨12, true, false, false, false, false, true⟩ []).entropy ≠
      ((preDashPassword ⟨12, true, false, false, false, false, true⟩ [] ).1.length : ℝ) *
        Real.logb 2
          ((generateCharacterSet ⟨12, true, false, false, false, false, true⟩).length : ℝ) := by
  have hcs : ¬generateCharacterSet ⟨12, true, false, false, false, false, true⟩ = [] := by decide
  have h15 : (passwordChars ⟨12, true, false, false, false, false, true⟩ []).length = 15 := by
    decide
  have h12 : (preDashPassword ⟨12, true, false, false, false, false, true⟩ []).1.length = 12 := by
    decide
  have h26 : (generateCharacterSet ⟨12, true, false, false, false, false, true⟩).length = 26 := by
    decide
  rw [generatePassword_pw_entropy _ _ hcs, calculateEntropy, h15, h12, h26]
  intro heq
  norm_num at heq

/-- C2 amended: with at least one class flag, `entropyBits` equals the length
of the *final* secret — the pre-dash length `max(flagCount, length)` plus the
number of inserted dash separators — times `log2(charset size)`; inserted
dashes do contribute to the length factor. -/
theorem C2_entropy_counts_dashes (o : PasswordOptions) (t : List ℕ)
    (h : o.includeLowercase = true ∨ o.includeUppercase = true ∨
      o.includeNumbers = true ∨ o.includeSymbols = true) :
    (generatePassword .password o t).entropy =
      ((preLen o + dashCount o : ℕ) : ℝ) *
        Real.logb 2 ((generateCharacterSet o).length : ℝ) := by
  have hcs : ¬generateCharacterSet o = [] := generateCharacterSet_ne_nil o h
  rw [generatePassword_pw_entropy _ _ hcs, calculateEntropy, passwordChars_length]

/-- C2 witness: the amended entropy formula at the counterexample input. -/
theorem C2_entropy_counts_dashes_witness :
    (generatePassword .password ⟨12, true, false, false, false, false, true⟩ []).entropy =
      ((preLen ⟨12, true, false, false, false, false, true⟩ +
          dashCount ⟨12, true, false, false, false, false, true⟩ : ℕ) : ℝ) *
        Real.logb 2
          ((generateCharacterSet ⟨12, true, false, false, false, false, true⟩).length : ℝ) :=
  C2_entropy_counts_dashes ⟨12, true, false, false, false, false, true⟩ [] (Or.inl rfl)

/-- Per-draw shape of one conditional required draw: one character of `seed`
when the flag is set, nothing otherwise. -/
theorem drawReq_all (flag : Bool) (seed : List Char) (n : ℕ) (t : List ℕ)
    (hn : seed.length = n) (hpos : 0 < n) :
    if flag then (drawReq flag seed n t).1.length = 1 ∧
      ∀ c ∈ (drawReq flag seed n t).1, c ∈ seed
    else (drawReq flag seed n t).1 = [] := by
  cases flag
  · simp [drawReq]
  · simp only [if_pos]
    exact ⟨by simp [drawReq], drawReq_subset true seed n t hn hpos⟩

/-- C4 counterexample: with every class selected and the tape [0,0,0,9], the
code's required characters (symbol draw from the 8-character set
`"!@#$%^&*"`, giving `'@'` from `9 % 8 = 1`) differ from the spec-modelled
draws from the full seed alphabets (which give `')'` from `9 % 26 = 9`). -/
theorem C4_required_symbol_draw_cex :
    requiredChars ⟨16, true, true, true, true, false, false⟩ [0, 0, 0, 9] ≠
      requiredCharsSpec ⟨16, true, true, true, true, false, false⟩ [0, 0, 0, 9] := by
  decide

/-- C4 amended: for every true class flag exactly one required character is
drawn via the Randomness Source (one tape value per selected class, consumed
in source order); the lowercase, uppercase and number draws come from those
classes' own full seed alphabets, but the symbol draw comes from the fixed
8-character set `"!@#$%^&*"`, a strict subset of the symbol seed, and none of
the draws use the combined (possibly ambiguity-filtered) charset. -/
theorem C4_required_draws (o : PasswordOptions) (t : List ℕ) :
    ∃ l u d s : List Char,
      (requiredChars o t).1 = l ++ u ++ d ++ s ∧
      (requiredChars o t).2 = t.drop (flagCount o) ∧
      (if o.includeLowercase then l.length = 1 ∧ ∀ c ∈ l, c ∈ lowerSeed else l = []) ∧
      (if o.includeUppercase then u.length = 1 ∧ ∀ c ∈ u, c ∈ upperSeed else u = []) ∧
      (if o.includeNumbers then d.length = 1 ∧ ∀ c ∈ d, c ∈ numberSeed else d = []) ∧
      (if o.includeSymbols then s.length = 1 ∧ ∀ c ∈ s, c ∈ reqSymbolSeed else s = []) := by
  refine ⟨(drawReq o.includeLowercase lowerSeed 26 t).1,
    (drawReq o.includeUppercase upperSeed 26
      (drawReq o.includeLowercase lowerSeed 26 t).2).1,
    (drawReq o.includeNumbers numberSeed 10
      (drawReq o.includeUppercase upperSeed 26
        (drawReq o.includeLowercase lowerSeed 26 t).2).2).1,
    (drawReq o.includeSymbols reqSymbolSeed 8
      (drawReq o.includeNumbers numberSeed 10
        (drawReq o.includeUppercase upperSeed 26
          (drawReq o.includeLowercase lowerSeed 26 t).2).2).2).1,
    ?_, requiredChars_snd o t,
    drawReq_all o.includeLowercase lowerSeed 26 t (by decide) (by omega),
    drawReq_all o.includeUppercase upperSeed 26 _ (by decide) (by omega),
    drawReq_all o.includeNumbers numberSeed 10 _ (by decide) (by omega),
    drawReq_all o.includeSymbols reqSymbolSeed 8 _ (by decide) (by omega)⟩
  simp [requiredChars, drawSeq, List.append_assoc]

/-- C8: with `includeDashes` and a pre-dash length over 8, the final secret is
the pre-dash string split into consecutive blocks of `⌊length/4⌋` characters
joined by single dashes: no dash is inserted before the first character (the
head is the pre-dash head), every block except possibly the last has exactly
`⌊length/4⌋` characters, and concatenating the blocks — i.e. deleting the
inserted dashes — restores the pre-dash string and hence its length. -/
theorem C8_dash_insertion (o : PasswordOptions) (t : List ℕ) (pre : List Char) (di : ℕ)
    (hd : o.includeDashes = true) (hpre : (preDashPassword o t).1 = pre)
    (hdi : di = pre.length / 4) (hlen : 8 < pre.length) :
    passwordChars o t = joinDash (chunksOf di pre) ∧
    (chunksOf di pre).flatten = pre ∧
    (passwordChars o t).headI = pre.headI ∧
    passwordChars o t ≠ [] ∧
    (chunksOf di pre).headI = pre.take di ∧
    (∀ w ∈ chunksOf di pre, w ≠ [] ∧ w.length ≤ di) ∧
    (∀ k, k + 1 < (chunksOf di pre).length → ((chunksOf di pre).getD k []).length = di) := by
  subst hdi
  subst hpre
  have hdipos : 0 < (preDashPassword o t).1.length / 4 := by omega
  have hfp : passwordChars o t =
      insertDashesAux ((preDashPassword o t).1.length / 4) 0 (preDashPassword o t).1 := by
    unfold passwordChars
    rw [if_pos ⟨hd, hlen⟩]
  have hjoin : passwordChars o t =
      joinDash (chunksOf ((preDashPassword o t).1.length / 4) (preDashPassword o t).1) := by
    rw [hfp, insertDashesAux_eq_joinDash_chunksOf _ hdipos (preDashPassword o t).1.length _
      le_rfl]
  refine ⟨hjoin, chunksOf_flatten _ (preDashPassword o t).1.length _ le_rfl, ?_, ?_,
    ?_, chunksOf_sizes _ hdipos (preDashPassword o t).1.length _ le_rfl,
    chunksOf_full_blocks _ hdipos (preDashPassword o t).1.length _ le_rfl⟩
  · cases hc : (preDashPassword o t).1 with
    | nil => rw [hc] at hlen; simp at hlen
    | cons c cs =>
        rw [hfp, hc, insertDashesAux_zero_cons]
        rfl
  · cases hc : (preDashPassword o t).1 with
    | nil => rw [hc] at hlen; simp at hlen
    | cons c cs =>
        rw [hfp, hc]
        exact insertDashesAux_ne_nil _ 0 c cs
  · cases hc : (preDashPassword o t).1 with
    | nil => rw [hc] at hlen; simp at hlen
    | cons c cs =>
        exact chunksOf_headI_take _ (by rw [hc] at hlen; omega) c cs

/-- C8 witness: the dash-insertion properties at the concrete input
{length 12, lowercase only, dashes on} with the all-zero tape, whose shuffled
pre-dash secret is twelve `a` characters and whose interval is 3. -/
theorem C8_dash_insertion_witness :
    passwordChars ⟨12, true, false, false, false, false, true⟩ [] =
      joinDash (chunksOf 3 "aaaaaaaaaaaa".toList) ∧
    (chunksOf 3 "aaaaaaaaaaaa".toList).flatten = "aaaaaaaaaaaa".toList ∧
    (passwordChars ⟨12, true, false, false, false, false, true⟩ []).headI =
      "aaaaaaaaaaaa".toList.headI ∧
    passwordChars ⟨12, true, false, false, false, false, true⟩ [] ≠ [] ∧
    (chunksOf 3 "aaaaaaaaaaaa".toList).headI = "aaaaaaaaaaaa".toList.take 3 ∧
    (∀ w ∈ chunksOf 3 "aaaaaaaaaaaa".toList, w ≠ [] ∧ w.length ≤ 3) ∧
    (∀ k, k + 1 < (chunksOf 3 "aaaaaaaaaaaa".toList).length →
      ((chunksOf 3 "aaaaaaaaaaaa".toList).getD k []).length = 3) :=
  C8_dash_insertion ⟨12, true, false, false, false, false, true⟩ [] "aaaaaaaaaaaa".toList 3
    rfl (by decide) (by decide) (by decide)
